import Mathlib

/-!
Shallow embedding of the UART-DAP driver core (src/uart-dap/src/lib.rs).

Strings are modelled as `List Char`; Rust `u32` values are modelled as `Nat`
with an explicit `% 2^32` wherever the source arithmetic can wrap (release
semantics of unsigned overflow).  Fallible Rust code returning
`Result`/panicking is modelled with `Except RunError`.
-/

/-- 2^32, the modulus of Rust `u32` arithmetic. -/
def u32Mod : Nat := 4294967296

/-- Constant `MAX_BYTES_PER_LINE` from the source (line 16). -/
def MAX_BYTES_PER_LINE : Nat := 16

/-- Constant `READ_DEFAULT_NBYTES` from the source (line 17). -/
def READ_DEFAULT_NBYTES : Nat := 16

/-- Rust `char::is_ascii_whitespace`: space, tab, line feed, form feed,
carriage return.  Used by `str::split_ascii_whitespace`. -/
def isAsciiWhitespace (c : Char) : Bool :=
  c = ' ' || c = '\t' || c = '\n' || c = '\x0c' || c = '\r'

/-- Rust `char::is_whitespace` (the Unicode White_Space property), used by
`str::trim`. -/
def isWhitespaceChar (c : Char) : Bool :=
  c = ' ' || c = '\t' || c = '\n' || c = '\x0b' || c = '\x0c' || c = '\r' ||
  c.toNat = 0x85 || c.toNat = 0xa0 || c.toNat = 0x1680 ||
  (0x2000 ≤ c.toNat && c.toNat ≤ 0x200a) ||
  c.toNat = 0x2028 || c.toNat = 0x2029 || c.toNat = 0x202f ||
  c.toNat = 0x205f || c.toNat = 0x3000

/-- Rust `str::trim`: remove leading and trailing whitespace. -/
def trim (s : List Char) : List Char :=
  ((s.dropWhile isWhitespaceChar).reverse.dropWhile isWhitespaceChar).reverse

/-- Worker for `split_ascii_whitespace`; `acc` holds the reversed current
token. -/
def splitWsGo (acc : List Char) : List Char → List (List Char)
  | [] => if acc.isEmpty then [] else [acc.reverse]
  | c :: rest =>
    if isAsciiWhitespace c then
      if acc.isEmpty then splitWsGo [] rest
      else acc.reverse :: splitWsGo [] rest
    else splitWsGo (c :: acc) rest

/-- Rust `str::split_ascii_whitespace` (collected to a list): maximal
non-whitespace runs, no empty tokens. -/
def split_ascii_whitespace (s : List Char) : List (List Char) :=
  splitWsGo [] s

/-- Boolean prefix test on character lists (Rust `str::starts_with` for
string patterns and the scan step of `str::split_once`). -/
def isPrefixOfB : List Char → List Char → Bool
  | [], _ => true
  | _ :: _, [] => false
  | a :: as, b :: bs => if a = b then isPrefixOfB as bs else false

/-- Rust `str::split_once(pat)`: split at the first occurrence of the
substring `pat`, returning the text before and after it. -/
def splitOnce (s : List Char) (pat : List Char) : Option (List Char × List Char) :=
  match s with
  | [] => if isPrefixOfB pat [] then some ([], []) else none
  | c :: rest =>
    if isPrefixOfB pat (c :: rest) then some ([], (c :: rest).drop pat.length)
    else
      match splitOnce rest pat with
      | some (a, b) => some (c :: a, b)
      | none => none

/-- Lowercase digit character for a value below the radix, as produced by
Rust `{:x}` formatting. -/
def digitChar (d : Nat) : Char :=
  if d < 10 then Char.ofNat (48 + d) else Char.ofNat (87 + d)

/-- Rust `char::to_digit(radix)`. -/
def digitVal (radix : Nat) (c : Char) : Option Nat :=
  let d? : Option Nat :=
    if '0' ≤ c ∧ c ≤ '9' then some (c.toNat - 48)
    else if 'a' ≤ c ∧ c ≤ 'z' then some (c.toNat - 87)
    else if 'A' ≤ c ∧ c ≤ 'Z' then some (c.toNat - 55)
    else none
  match d? with
  | some d => if d < radix then some d else none
  | none => none

/-- Base-`b` digits of `n`, least significant first, with fuel (`fuel ≥ n`
suffices for `b ≥ 2`).  Structural recursion keeps the definition
kernel-computable. -/
def digitsLEAux (b : Nat) : Nat → Nat → List Nat
  | 0, _ => []
  | _, 0 => []
  | fuel + 1, n + 1 => ((n + 1) % b) :: digitsLEAux b fuel ((n + 1) / b)

/-- Base-`b` digits of `n`, least significant first. -/
def digitsLE (b n : Nat) : List Nat :=
  digitsLEAux b n n

/-- Value of a least-significant-first digit list. -/
def ofDigitsLE (b : Nat) : List Nat → Nat
  | [] => 0
  | d :: ds => d + b * ofDigitsLE b ds

/-- Rust unpadded lowercase formatting of `n` in base `b` (as in `{:x}` for
`b = 16` and `{}` for `b = 10`); zero prints as a single `0`. -/
def natToRadixChars (b n : Nat) : List Char :=
  if n = 0 then ['0'] else ((digitsLE b n).map digitChar).reverse

/-- Digit-accumulation loop of Rust `u32::from_str_radix`: fails on a
non-digit and on u32 overflow at any step. -/
def parseU32Digits (radix : Nat) : List Char → Nat → Option Nat
  | [], acc => some acc
  | c :: rest, acc =>
    match digitVal radix c with
    | none => none
    | some d =>
      if acc * radix + d < u32Mod then parseU32Digits radix rest (acc * radix + d)
      else none

/-- Rust `u32::from_str_radix`: optional sign, then at least one digit;
a negative sign succeeds only on value zero (`checked_sub` underflow). -/
def fromStrRadixU32 (radix : Nat) (s : List Char) : Option Nat :=
  match s with
  | [] => none
  | c :: rest =>
    if c = '+' then (if rest.isEmpty then none else parseU32Digits radix rest 0)
    else if c = '-' then
      (if rest.isEmpty then none
       else
         match parseU32Digits radix rest 0 with
         | some 0 => some 0
         | _ => none)
    else parseU32Digits radix (c :: rest) 0

/-- `parse_based_int` from the source (lines 305-315): `0x`/`0X` prefix is
base 16, `0b`/`0B` prefix is base 2, otherwise decimal `u32::from_str`. -/
def parse_based_int (s : List Char) : Option Nat :=
  if isPrefixOfB "0x".toList s || isPrefixOfB "0X".toList s then
    fromStrRadixU32 16 (s.drop 2)
  else if isPrefixOfB "0b".toList s || isPrefixOfB "0B".toList s then
    fromStrRadixU32 2 (s.drop 2)
  else fromStrRadixU32 10 s

/-- The `Command` enum from the source. -/
inductive Command
  | read (addr : Nat) (nbytes : Nat)
  | write (addr : Nat) (data : Nat)
deriving DecidableEq, Repr

/-- The `Event` enum from the source. -/
inductive Event
  | read (addr : Nat) (data : Nat)
  | write (addr : Nat) (data : Nat)
deriving DecidableEq, Repr

/-- The `LineEnding` enum from the source. -/
inductive LineEnding
  | lf
  | crlf
deriving DecidableEq, Repr

/-- The `Echo` enum from the source (`local` is a Lean keyword, hence
`localEcho`). -/
inductive Echo
  | localEcho
  | remote
deriving DecidableEq, Repr

/-- `LineEnding::fmt` from the source (lines 31-38). -/
def lineEndingText : LineEnding → List Char
  | .lf => "\n".toList
  | .crlf => "\r\n".toList

/-- `Command::fmt` from the source (lines 122-129): `{:#x}` renders as `0x`
followed by unpadded lowercase hex. -/
def commandText : Command → List Char
  | .read addr nbytes =>
    "mr kernel 0x".toList ++ natToRadixChars 16 addr ++ " ".toList ++
      natToRadixChars 10 nbytes
  | .write addr data =>
    "mw kernel 0x".toList ++ natToRadixChars 16 addr ++ " 0x".toList ++
      natToRadixChars 16 data

/-- `Command::from_tokens` from the source (lines 100-120). -/
def Command.from_tokens (tokens : List (List Char)) : Option Command :=
  match tokens with
  | [t0, t1, addr, nbytes] =>
    if t0 = "mr".toList ∧ t1 = "kernel".toList then
      match parse_based_int addr, parse_based_int nbytes with
      | some a, some n => some (.read a n)
      | _, _ => none
    else if t0 = "mw".toList ∧ t1 = "kernel".toList then
      match parse_based_int addr, parse_based_int nbytes with
      | some a, some d => some (.write a d)
      | _, _ => none
    else none
  | [t0, t1, addr] =>
    if t0 = "mr".toList ∧ t1 = "kernel".toList then
      match parse_based_int addr with
      | some a => some (.read a READ_DEFAULT_NBYTES)
      | none => none
    else none
  | _ => none

/-- The `BufferState` enum from the source (lines 174-178).  The `lines`
field is a `u8` in the source; creation in `process_line` enforces
`lines ≤ 255` (via `try_into`), so we carry a `Nat`. -/
inductive BufferState
  | waitForCommand
  | waitForResponse (command : Command) (lines : Nat)
deriving DecidableEq, Repr

/-- Failure modes of the line processor: `outOfBounds` models the Rust panic
of `split_at(1)` on an empty token list; `parseIntError` the `?` on
`u32::from_str_radix`; `tryFromIntError` the `?` on `try_into::<u8>`. -/
inductive RunError
  | outOfBounds
  | parseIntError
  | tryFromIntError
deriving DecidableEq, Repr

/-- `div_ceil` from the source (lines 218-220): `(lhs + rhs - 1) / rhs` in
wrapping `u32` arithmetic (the two wrapping steps `lhs + rhs` then `- 1`
equal a single `% 2^32` of `lhs + rhs - 1`). -/
def div_ceil (lhs rhs : Nat) : Nat :=
  ((lhs + rhs - 1) % u32Mod) / rhs

/-- Little-endian word fold from `process_line` (lines 266-273): Rust
`dword | (byte << (idx * 8))` on `u32`; the chunk length bound 4 keeps the
shift amount below 32. -/
def foldWord (bytes : List Nat) : Nat :=
  bytes.enum.foldl (fun dword p => dword ||| ((p.2 <<< (p.1 * 8)) % u32Mod)) 0

/-- Rust `slice::chunks(4)`: consecutive groups of 4, last group possibly
shorter. -/
def chunks4 : List Nat → List (List Nat)
  | b0 :: b1 :: b2 :: b3 :: rest => [b0, b1, b2, b3] :: chunks4 rest
  | [] => []
  | l => [l]

/-- Sequencing of `collect::<Result<Vec<_>, ParseIntError>>()` over the hex
byte tokens of a response line (line 264). -/
def parseHexTokens : List (List Char) → Option (List Nat)
  | [] => some []
  | t :: ts =>
    match fromStrRadixU32 16 t with
    | none => none
    | some v =>
      match parseHexTokens ts with
      | none => none
      | some vs => some (v :: vs)

/-- The prompt constant from `UartDap::run` (line 88). -/
def promptText : List Char := "DEBUG>".toList

/-- `process_line` from the source (lines 226-303).  Returns the next state
and the list of events sent on the event channel, in order; `Except` models
error returns and the panic. -/
def process_line (prompt : List Char) (state : BufferState) (line : List Char) :
    Except RunError (BufferState × List Event) :=
  match state with
  | .waitForCommand =>
    let tokens := split_ascii_whitespace line
    -- Rust `tokens.split_at(1)` panics when `tokens` is empty.
    match tokens with
    | [] => .error .outOfBounds
    | first :: user_tokens =>
      if first = prompt then
        match Command.from_tokens user_tokens with
        | some (Command.write addr data) =>
          .ok (.waitForCommand, [Event.write addr data])
        | some (Command.read addr nbytes) =>
          let lines := div_ceil nbytes MAX_BYTES_PER_LINE
          if lines ≤ 255 then
            .ok (.waitForResponse (.read addr nbytes) lines, [])
          else .error .tryFromIntError
        | none => .ok (.waitForCommand, [])
      else .ok (.waitForCommand, [])
  | .waitForResponse command lines =>
    match command with
    | Command.read addr nbytes =>
      match splitOnce line (" |".toList) with
      | none => .ok (.waitForCommand, [])
      | some (remaining, _) =>
        match splitOnce remaining (": ".toList) with
        | none => .ok (.waitForCommand, [])
        | some (_, remaining2) =>
          match parseHexTokens (split_ascii_whitespace remaining2) with
          | none => .error .parseIntError
          | some read_bytes =>
            -- `addr + (idx as u32 * 4)` in wrapping u32 arithmetic.
            let events := (chunks4 read_bytes).enum.map
              (fun p => Event.read ((addr + p.1 * 4) % u32Mod) (foldWord p.2))
            if 1 < lines then
              .ok (.waitForResponse
                (.read ((addr + MAX_BYTES_PER_LINE) % u32Mod)
                  ((nbytes + u32Mod - MAX_BYTES_PER_LINE) % u32Mod))
                (lines - 1), events)
            else .ok (.waitForCommand, events)
    | Command.write _ _ => .ok (.waitForCommand, [])

/-- Iterated `process_line` over successive lines, accumulating events and
propagating the first error, as the `serial_combiner` loop does. -/
def processLines (prompt : List Char) (state : BufferState) :
    List (List Char) → Except RunError (BufferState × List Event)
  | [] => .ok (state, [])
  | l :: ls =>
    match process_line prompt state l with
    | .error e => .error e
    | .ok (st2, evs) =>
      match processLines prompt st2 ls with
      | .error e => .error e
      | .ok (st3, evs2) => .ok (st3, evs ++ evs2)

/-- One buffer inspection of `serial_combiner` (lines 210-214): only when the
buffer ends in a newline is anything processed, and then the whole buffer is
trimmed into a single line and cleared.  Returns the line handed to
`process_line` (if any) and the retained buffer. -/
def combinerStep (buffer : List Char) : Option (List Char) × List Char :=
  if buffer.getLast? = some '\n' then (some (trim buffer), []) else (none, buffer)

/-- Iterated `serial_combiner` appends: each arriving chunk (echo text or
serial bytes) is appended to the buffer and the buffer inspected.  Returns
the lines forwarded to the parser and the final buffer. -/
def combinerRun (buffer : List Char) : List (List Char) → List (List Char) × List Char
  | [] => ([], buffer)
  | chunk :: rest =>
    match combinerStep (buffer ++ chunk) with
    | (some line, buf2) =>
      match combinerRun buf2 rest with
      | (ls, bf) => (line :: ls, bf)
    | (none, buf2) => combinerRun buf2 rest

/-- Echo injection of `serial_combiner` (lines 196-198): the bytes appended
to the line buffer for a locally echoed command are
`format!("{}{}", command, line_ending)` — with no prompt prefix. -/
def echoMessage (le : LineEnding) (c : Command) : List Char :=
  commandText c ++ lineEndingText le

/-- `command_input_splitter` from the source (lines 132-149): commands go to
the echo queue only under `Echo::Local`, and always to the serial queue, in
input order. -/
def command_input_splitter (echo : Echo) (cmds : List Command) :
    List Command × List Command :=
  ((if echo = .localEcho then cmds else []), cmds)

/-- `process_serial_tx` from the source (lines 151-172): for each command,
the command text bytes then the line-ending bytes are written, in command
order. -/
def process_serial_tx (le : LineEnding) : List Command → List Char
  | [] => []
  | c :: cs => commandText c ++ lineEndingText le ++ process_serial_tx le cs


/-- Space-joined rendering of a token list (the shape of the byte segment of
a hex-dump line). -/
def interSp : List (List Char) → List Char
  | [] => []
  | [t] => t
  | t :: u :: ts => t ++ ' ' :: interSp (u :: ts)

/-- Byte segment of a canonical hex-dump response line: unpadded lowercase
hex byte tokens separated by single spaces. -/
def renderBytesSeg (bs : List Nat) : List Char :=
  interSp (bs.map (natToRadixChars 16))

/-- A canonical hex-dump response line as produced by the target (compare
the example in the source comment at lines 222-225 and the simulator):
address, `": "`, byte tokens, then the ASCII-gutter delimiter ` |…|`. -/
def renderDumpLine (a0 : Nat) (bs : List Nat) : List Char :=
  natToRadixChars 16 a0 ++ ": ".toList ++ renderBytesSeg bs ++ " |----|".toList

/-- Hex-dump lines for a whole read response: sixteen bytes per line, the
printed address advancing by sixteen per line (fuel-based recursion over the
byte list; `fuel ≥ bs.length` suffices). -/
def dumpLinesAux (addr : Nat) : Nat → List Nat → List (List Char)
  | _, [] => []
  | 0, _ :: _ => []
  | fuel + 1, b :: bs =>
    renderDumpLine (addr % u32Mod) ((b :: bs).take 16) ::
      dumpLinesAux (addr + 16) fuel ((b :: bs).drop 16)

/-- Hex-dump lines for a whole read response starting at `addr`. -/
def dumpLines (addr : Nat) (bs : List Nat) : List (List Char) :=
  dumpLinesAux addr bs.length bs

/-- The echo line the parser sees for a command when the target prompt
precedes the echoed text. -/
def promptedLine (c : Command) : List Char :=
  "DEBUG> ".toList ++ commandText c

/-- Fields of a command fit in `u32` (always true of values originating from
the Rust types). -/
def commandFieldsLtU32 : Command → Prop
  | .read a n => a < u32Mod ∧ n < u32Mod
  | .write a d => a < u32Mod ∧ d < u32Mod

instance : DecidablePred commandFieldsLtU32 := by
  intro c
  cases c <;> simp [commandFieldsLtU32] <;> infer_instance

-- ### Tokenisation lemmas

theorem splitWsGo_token (t : List Char) (hws : ∀ c ∈ t, isAsciiWhitespace c = false) :
    ∀ acc rest, splitWsGo acc (t ++ rest) = splitWsGo (t.reverse ++ acc) rest := by
  induction t with
  | nil => intro acc rest; simp
  | cons c cs ih =>
    intro acc rest
    have hc : isAsciiWhitespace c = false := hws c (by simp)
    have hcs : ∀ x ∈ cs, isAsciiWhitespace x = false := fun x hx => hws x (by simp [hx])
    rw [List.cons_append,
      show splitWsGo acc (c :: (cs ++ rest)) = splitWsGo (c :: acc) (cs ++ rest) by
        simp [splitWsGo, hc],
      ih hcs]
    simp

theorem splitWsGo_nil_acc (acc : List Char) (h : acc ≠ []) :
    splitWsGo acc [] = [acc.reverse] := by
  simp [splitWsGo, h]

theorem splitWsGo_space (acc : List Char) (h : acc ≠ []) (rest : List Char) :
    splitWsGo acc (' ' :: rest) = acc.reverse :: splitWsGo [] rest := by
  simp [splitWsGo, isAsciiWhitespace, h]

theorem splitWsGo_single (t : List Char) (hne : t ≠ [])
    (hws : ∀ c ∈ t, isAsciiWhitespace c = false) :
    splitWsGo [] t = [t] := by
  have h := splitWsGo_token t hws [] []
  rw [List.append_nil, List.append_nil] at h
  rw [h, splitWsGo_nil_acc _ (by simpa using hne), List.reverse_reverse]

theorem split_ascii_whitespace_interSp (ts : List (List Char))
    (h : ∀ t ∈ ts, t ≠ [] ∧ ∀ c ∈ t, isAsciiWhitespace c = false) :
    split_ascii_whitespace (interSp ts) = ts := by
  induction ts with
  | nil => simp [split_ascii_whitespace, interSp, splitWsGo]
  | cons t ts ih =>
    obtain ⟨hne, hws⟩ := h t (by simp)
    have hts : ∀ u ∈ ts, u ≠ [] ∧ ∀ c ∈ u, isAsciiWhitespace c = false :=
      fun u hu => h u (by simp [hu])
    cases ts with
    | nil =>
      simpa [interSp, split_ascii_whitespace] using splitWsGo_single t hne hws
    | cons u us =>
      simp only [interSp, split_ascii_whitespace]
      rw [splitWsGo_token t hws, List.append_nil,
        splitWsGo_space _ (by simpa using hne)]
      rw [List.reverse_reverse]
      exact congrArg _ (ih hts)

theorem splitOnce_pair (c1 c2 : Char) (hne : c1 ≠ c2) :
    ∀ (A B : List Char), c2 ∉ A →
      splitOnce (A ++ c1 :: c2 :: B) [c1, c2] = some (A, B) := by
  intro A
  induction A with
  | nil =>
    intro B _
    simp [splitOnce, isPrefixOfB]
  | cons x xs ih =>
    intro B hmem
    have hxs : c2 ∉ xs := fun h => hmem (by simp [h])
    have h2 : isPrefixOfB [c2] (xs ++ c1 :: c2 :: B) = false := by
      cases xs with
      | nil => simp [isPrefixOfB, Ne.symm hne]
      | cons y ys =>
        have hy : y ≠ c2 := fun h => hmem (by simp [h])
        simp [isPrefixOfB, Ne.symm hy]
    have hpf : isPrefixOfB [c1, c2] (x :: (xs ++ c1 :: c2 :: B)) = false := by
      simp [isPrefixOfB, h2]
    simp only [List.cons_append, splitOnce, hpf, Bool.false_eq_true, if_false,
      List.append_eq]
    rw [ih B hxs]

-- ### Digit and radix round-trip lemmas

theorem digitVal_digitChar : ∀ b < 17, ∀ d < b, digitVal b (digitChar d) = some d := by
  decide

theorem digitsLEAux_lt (b : Nat) (hb : 2 ≤ b) :
    ∀ fuel n d, d ∈ digitsLEAux b fuel n → d < b := by
  intro fuel
  induction fuel with
  | zero => intro n d hd; simp [digitsLEAux] at hd
  | succ f ih =>
    intro n d hd
    match n with
    | 0 => simp [digitsLEAux] at hd
    | m + 1 =>
      simp only [digitsLEAux, List.mem_cons] at hd
      cases hd with
      | inl h => exact h ▸ Nat.mod_lt _ (by omega)
      | inr h => exact ih _ _ h

theorem ofDigitsLE_digitsLEAux (b : Nat) (hb : 2 ≤ b) :
    ∀ fuel n, n ≤ fuel → ofDigitsLE b (digitsLEAux b fuel n) = n := by
  intro fuel
  induction fuel with
  | zero =>
    intro n h
    have : n = 0 := by omega
    subst this
    simp [digitsLEAux, ofDigitsLE]
  | succ f ih =>
    intro n h
    match n with
    | 0 => simp [digitsLEAux, ofDigitsLE]
    | m + 1 =>
      have hdiv : (m + 1) / b ≤ f := by
        have h1 : (m + 1) / b ≤ (m + 1) / 2 := Nat.div_le_div_left hb (by omega)
        have h2 : (m + 1) / 2 ≤ m := by omega
        omega
      simp only [digitsLEAux, ofDigitsLE, ih _ hdiv]
      exact Nat.mod_add_div _ _

theorem ofDigitsLE_digitsLE (b n : Nat) (hb : 2 ≤ b) :
    ofDigitsLE b (digitsLE b n) = n :=
  ofDigitsLE_digitsLEAux b hb n n (le_refl n)

theorem digitsLE_lt (b n : Nat) (hb : 2 ≤ b) : ∀ d ∈ digitsLE b n, d < b :=
  fun d hd => digitsLEAux_lt b hb n n d hd

theorem digitsLE_ne_nil (b n : Nat) (hn : n ≠ 0) : digitsLE b n ≠ [] := by
  match n with
  | 0 => omega
  | m + 1 => simp [digitsLE, digitsLEAux]

theorem parseU32Digits_foldl_le (radix : Nat) (hr : 1 ≤ radix) :
    ∀ (ds : List Nat) (a : Nat), a ≤ ds.foldl (fun x d => x * radix + d) a := by
  intro ds
  induction ds with
  | nil => intro a; simp
  | cons d ds ih =>
    intro a
    calc a ≤ a * radix + d := by nlinarith
    _ ≤ _ := by simpa using ih (a * radix + d)

theorem parseU32Digits_spec (radix : Nat) (hr : 2 ≤ radix) (hr17 : radix < 17) :
    ∀ (ds : List Nat) (a : Nat), (∀ d ∈ ds, d < radix) →
      ds.foldl (fun x d => x * radix + d) a < u32Mod →
      parseU32Digits radix (ds.map digitChar) a =
        some (ds.foldl (fun x d => x * radix + d) a) := by
  intro ds
  induction ds with
  | nil => intro a _ _; simp [parseU32Digits]
  | cons d ds ih =>
    intro a hlt hbound
    have hd : d < radix := hlt d (by simp)
    have hds : ∀ x ∈ ds, x < radix := fun x hx => hlt x (by simp [hx])
    have hstep : a * radix + d < u32Mod := by
      have := parseU32Digits_foldl_le radix (by omega) ds (a * radix + d)
      simp only [List.foldl_cons] at hbound
      omega
    simp only [List.map_cons, parseU32Digits, digitVal_digitChar radix hr17 d hd,
      hstep, if_pos, List.foldl_cons]
    exact ih (a * radix + d) hds (by simpa using hbound)

theorem foldl_reverse_ofDigitsLE (b : Nat) :
    ∀ (ds : List Nat) (a : Nat),
      ds.reverse.foldl (fun x d => x * b + d) a =
        a * b ^ ds.length + ofDigitsLE b ds := by
  intro ds
  induction ds with
  | nil => intro a; simp [ofDigitsLE]
  | cons d ds ih =>
    intro a
    simp only [List.reverse_cons, List.foldl_append, ih a, List.foldl_cons,
      List.foldl_nil, ofDigitsLE, List.length_cons]
    ring

theorem fromStrRadixU32_cons_digit (radix : Nat) (c : Char) (cs : List Char)
    (h1 : c ≠ '+') (h2 : c ≠ '-') :
    fromStrRadixU32 radix (c :: cs) = parseU32Digits radix (c :: cs) 0 := by
  simp [fromStrRadixU32, h1, h2]

theorem digitChar_not_sign : ∀ d < 16, digitChar d ≠ '+' ∧ digitChar d ≠ '-' := by
  decide

theorem fromStrRadixU32_natToRadixChars (b n : Nat) (hb : 2 ≤ b) (hb16 : b ≤ 16)
    (hn : n < u32Mod) :
    fromStrRadixU32 b (natToRadixChars b n) = some n := by
  by_cases h0 : n = 0
  · subst h0
    have hbpos : 0 < b := by omega
    simp [natToRadixChars, fromStrRadixU32, parseU32Digits, digitVal, u32Mod, hbpos]
  · have hds := digitsLE_lt b n hb
    have hval : (digitsLE b n).reverse.foldl (fun x d => x * b + d) 0 = n := by
      rw [foldl_reverse_ofDigitsLE, ofDigitsLE_digitsLE b n hb]
      simp
    have hmap : natToRadixChars b n = ((digitsLE b n).reverse.map digitChar) := by
      simp [natToRadixChars, h0, List.map_reverse]
    obtain ⟨d, ds, hcons⟩ : ∃ d ds, (digitsLE b n).reverse = d :: ds := by
      have : (digitsLE b n).reverse ≠ [] := by
        simpa using digitsLE_ne_nil b n h0
      exact List.exists_cons_of_ne_nil this
    have hrev : ∀ x ∈ (digitsLE b n).reverse, x < b := fun x hx =>
      hds x (List.mem_reverse.mp hx)
    have hd16 : d < 16 := by
      have := hrev d (by rw [hcons]; simp)
      omega
    rw [hmap, hcons, List.map_cons,
      fromStrRadixU32_cons_digit b _ _ (digitChar_not_sign d hd16).1
        (digitChar_not_sign d hd16).2,
      ← List.map_cons, ← hcons,
      parseU32Digits_spec b hb (by omega) _ 0 hrev (by rw [hval]; exact hn),
      hval]

-- ### Character classes of rendered numerals

/-- Characters that unpadded lowercase hex formatting can produce. -/
def hexAlphabet : List Char := "0123456789abcdef".toList

/-- Characters that decimal formatting can produce. -/
def decAlphabet : List Char := "0123456789".toList

theorem digitChar_mem_hex : ∀ d < 16, digitChar d ∈ hexAlphabet := by
  decide

theorem digitChar_mem_dec : ∀ d < 10, digitChar d ∈ decAlphabet := by
  decide

theorem natToRadixChars_subset_hex (n : Nat) :
    ∀ c ∈ natToRadixChars 16 n, c ∈ hexAlphabet := by
  intro c hc
  by_cases h0 : n = 0
  · subst h0
    rw [show natToRadixChars 16 0 = ['0'] from rfl] at hc
    simp only [List.mem_singleton] at hc
    subst hc
    decide
  · simp only [natToRadixChars, h0, if_false, List.mem_reverse, List.mem_map] at hc
    obtain ⟨d, hd, rfl⟩ := hc
    exact digitChar_mem_hex d (digitsLE_lt 16 n (by omega) d hd)

theorem natToRadixChars_subset_dec (n : Nat) :
    ∀ c ∈ natToRadixChars 10 n, c ∈ decAlphabet := by
  intro c hc
  by_cases h0 : n = 0
  · subst h0
    rw [show natToRadixChars 10 0 = ['0'] from rfl] at hc
    simp only [List.mem_singleton] at hc
    subst hc
    decide
  · simp only [natToRadixChars, h0, if_false, List.mem_reverse, List.mem_map] at hc
    obtain ⟨d, hd, rfl⟩ := hc
    exact digitChar_mem_dec d (digitsLE_lt 10 n (by omega) d hd)

theorem hexAlphabet_props : ∀ c ∈ hexAlphabet,
    isAsciiWhitespace c = false ∧ c ≠ '|' ∧ c ≠ ':' ∧ isWhitespaceChar c = false := by
  decide

theorem decAlphabet_props : ∀ c ∈ decAlphabet,
    isAsciiWhitespace c = false ∧ c ≠ 'x' ∧ c ≠ 'X' ∧ c ≠ 'b' ∧ c ≠ 'B' ∧
      isWhitespaceChar c = false := by
  decide

theorem natToRadixChars_ne_nil (b n : Nat) : natToRadixChars b n ≠ [] := by
  by_cases h : n = 0
  · subst h; simp [natToRadixChars]
  · simp [natToRadixChars, h, digitsLE_ne_nil b n h]

-- ### parse_based_int on rendered numerals

theorem isPrefixOfB_two_single (a b c : Char) : isPrefixOfB [a, b] [c] = false := by
  simp [isPrefixOfB]

theorem isPrefixOfB_two_of_snd_ne (a b c0 c1 : Char) (rest : List Char)
    (h : b ≠ c1) : isPrefixOfB [a, b] (c0 :: c1 :: rest) = false := by
  simp [isPrefixOfB, h]

theorem parse_based_int_0x (cs : List Char) :
    parse_based_int ('0' :: 'x' :: cs) = fromStrRadixU32 16 cs := by
  have h : isPrefixOfB ['0', 'x'] ('0' :: 'x' :: cs) = true := by
    simp [isPrefixOfB]
  simp [parse_based_int, show "0x".toList = ['0', 'x'] from rfl, h]

theorem parse_based_int_natToRadixChars10 (n : Nat) (hn : n < u32Mod) :
    parse_based_int (natToRadixChars 10 n) = some n := by
  have hsub := natToRadixChars_subset_dec n
  have hparse : fromStrRadixU32 10 (natToRadixChars 10 n) = some n :=
    fromStrRadixU32_natToRadixChars 10 n (by omega) (by omega) hn
  obtain ⟨c0, rest, hcons⟩ :=
    List.exists_cons_of_ne_nil (natToRadixChars_ne_nil 10 n)
  cases rest with
  | nil =>
    rw [hcons] at hparse ⊢
    simp [parse_based_int, show "0x".toList = ['0', 'x'] from rfl,
      show "0X".toList = ['0', 'X'] from rfl,
      show "0b".toList = ['0', 'b'] from rfl,
      show "0B".toList = ['0', 'B'] from rfl,
      isPrefixOfB_two_single, hparse]
  | cons c1 rest2 =>
    have hc1 : c1 ∈ decAlphabet := by
      rw [hcons] at hsub
      exact hsub c1 (by simp)
    obtain ⟨-, hx, hX, hb, hB, -⟩ := decAlphabet_props c1 hc1
    rw [hcons] at hparse ⊢
    simp [parse_based_int, show "0x".toList = ['0', 'x'] from rfl,
      show "0X".toList = ['0', 'X'] from rfl,
      show "0b".toList = ['0', 'b'] from rfl,
      show "0B".toList = ['0', 'B'] from rfl,
      isPrefixOfB_two_of_snd_ne _ _ _ _ _ (Ne.symm hx),
      isPrefixOfB_two_of_snd_ne _ _ _ _ _ (Ne.symm hX),
      isPrefixOfB_two_of_snd_ne _ _ _ _ _ (Ne.symm hb),
      isPrefixOfB_two_of_snd_ne _ _ _ _ _ (Ne.symm hB),
      hparse]

-- ### Command text tokenisation and round trip

theorem commandText_read_interSp (a n : Nat) :
    commandText (.read a n) =
      interSp ["mr".toList, "kernel".toList, '0' :: 'x' :: natToRadixChars 16 a,
        natToRadixChars 10 n] := by
  simp only [commandText, interSp, List.append_assoc]
  rfl

theorem commandText_write_interSp (a d : Nat) :
    commandText (.write a d) =
      interSp ["mw".toList, "kernel".toList, '0' :: 'x' :: natToRadixChars 16 a,
        '0' :: 'x' :: natToRadixChars 16 d] := by
  simp only [commandText, interSp, List.append_assoc]
  rfl

theorem promptedLine_read_interSp (a n : Nat) :
    promptedLine (.read a n) =
      interSp ["DEBUG>".toList, "mr".toList, "kernel".toList,
        '0' :: 'x' :: natToRadixChars 16 a, natToRadixChars 10 n] := by
  simp only [promptedLine, commandText, interSp, List.append_assoc]
  rfl

theorem promptedLine_write_interSp (a d : Nat) :
    promptedLine (.write a d) =
      interSp ["DEBUG>".toList, "mw".toList, "kernel".toList,
        '0' :: 'x' :: natToRadixChars 16 a, '0' :: 'x' :: natToRadixChars 16 d] := by
  simp only [promptedLine, commandText, interSp, List.append_assoc]
  rfl

theorem token_0xhex_ok (a : Nat) :
    ('0' :: 'x' :: natToRadixChars 16 a) ≠ [] ∧
      ∀ c ∈ ('0' :: 'x' :: natToRadixChars 16 a), isAsciiWhitespace c = false := by
  refine ⟨by simp, ?_⟩
  intro c hc
  simp only [List.mem_cons] at hc
  rcases hc with rfl | rfl | hc
  · decide
  · decide
  · exact (hexAlphabet_props c (natToRadixChars_subset_hex a c hc)).1

theorem token_dec_ok (n : Nat) :
    natToRadixChars 10 n ≠ [] ∧
      ∀ c ∈ natToRadixChars 10 n, isAsciiWhitespace c = false :=
  ⟨natToRadixChars_ne_nil 10 n, fun c hc =>
    (decAlphabet_props c (natToRadixChars_subset_dec n c hc)).1⟩

theorem token_hex_ok (a : Nat) :
    natToRadixChars 16 a ≠ [] ∧
      ∀ c ∈ natToRadixChars 16 a, isAsciiWhitespace c = false :=
  ⟨natToRadixChars_ne_nil 16 a, fun c hc =>
    (hexAlphabet_props c (natToRadixChars_subset_hex a c hc)).1⟩

theorem from_tokens_read (a n : Nat) (ha : a < u32Mod) (hn : n < u32Mod) :
    Command.from_tokens ["mr".toList, "kernel".toList,
      '0' :: 'x' :: natToRadixChars 16 a, natToRadixChars 10 n] =
      some (.read a n) := by
  simp [Command.from_tokens, parse_based_int_0x,
    fromStrRadixU32_natToRadixChars 16 a (by omega) (by omega) ha,
    parse_based_int_natToRadixChars10 n hn]

theorem from_tokens_write (a d : Nat) (ha : a < u32Mod) (hd : d < u32Mod) :
    Command.from_tokens ["mw".toList, "kernel".toList,
      '0' :: 'x' :: natToRadixChars 16 a, '0' :: 'x' :: natToRadixChars 16 d] =
      some (.write a d) := by
  simp only [Command.from_tokens]
  rw [if_neg (by decide), if_pos (by decide)]
  simp [parse_based_int_0x,
    fromStrRadixU32_natToRadixChars 16 a (by omega) (by omega) ha,
    fromStrRadixU32_natToRadixChars 16 d (by omega) (by omega) hd]

theorem split_commandText_read (a n : Nat) :
    split_ascii_whitespace (commandText (.read a n)) =
      ["mr".toList, "kernel".toList, '0' :: 'x' :: natToRadixChars 16 a,
        natToRadixChars 10 n] := by
  rw [commandText_read_interSp]
  refine split_ascii_whitespace_interSp _ ?_
  intro t ht
  simp only [List.mem_cons, List.not_mem_nil, or_false] at ht
  rcases ht with rfl | rfl | rfl | rfl
  · exact ⟨by decide, by decide⟩
  · exact ⟨by decide, by decide⟩
  · exact token_0xhex_ok a
  · exact token_dec_ok n

theorem split_commandText_write (a d : Nat) :
    split_ascii_whitespace (commandText (.write a d)) =
      ["mw".toList, "kernel".toList, '0' :: 'x' :: natToRadixChars 16 a,
        '0' :: 'x' :: natToRadixChars 16 d] := by
  rw [commandText_write_interSp]
  refine split_ascii_whitespace_interSp _ ?_
  intro t ht
  simp only [List.mem_cons, List.not_mem_nil, or_false] at ht
  rcases ht with rfl | rfl | rfl | rfl
  · exact ⟨by decide, by decide⟩
  · exact ⟨by decide, by decide⟩
  · exact token_0xhex_ok a
  · exact token_0xhex_ok d

theorem split_promptedLine_read (a n : Nat) :
    split_ascii_whitespace (promptedLine (.read a n)) =
      ["DEBUG>".toList, "mr".toList, "kernel".toList,
        '0' :: 'x' :: natToRadixChars 16 a, natToRadixChars 10 n] := by
  rw [promptedLine_read_interSp]
  refine split_ascii_whitespace_interSp _ ?_
  intro t ht
  simp only [List.mem_cons, List.not_mem_nil, or_false] at ht
  rcases ht with rfl | rfl | rfl | rfl | rfl
  · exact ⟨by decide, by decide⟩
  · exact ⟨by decide, by decide⟩
  · exact ⟨by decide, by decide⟩
  · exact token_0xhex_ok a
  · exact token_dec_ok n

theorem split_promptedLine_write (a d : Nat) :
    split_ascii_whitespace (promptedLine (.write a d)) =
      ["DEBUG>".toList, "mw".toList, "kernel".toList,
        '0' :: 'x' :: natToRadixChars 16 a, '0' :: 'x' :: natToRadixChars 16 d] := by
  rw [promptedLine_write_interSp]
  refine split_ascii_whitespace_interSp _ ?_
  intro t ht
  simp only [List.mem_cons, List.not_mem_nil, or_false] at ht
  rcases ht with rfl | rfl | rfl | rfl | rfl
  · exact ⟨by decide, by decide⟩
  · exact ⟨by decide, by decide⟩
  · exact ⟨by decide, by decide⟩
  · exact token_0xhex_ok a
  · exact token_0xhex_ok d

-- ### process_line on echo lines

theorem process_line_write_echo (a d : Nat) (ha : a < u32Mod) (hd : d < u32Mod) :
    process_line promptText .waitForCommand (promptedLine (.write a d)) =
      .ok (.waitForCommand, [Event.write a d]) := by
  simp only [process_line, split_promptedLine_write a d]
  rw [if_pos (show "DEBUG>".toList = promptText from rfl),
    from_tokens_write a d ha hd]

theorem process_line_read_echo (a n : Nat) (ha : a < u32Mod) (hn : n < u32Mod) :
    process_line promptText .waitForCommand (promptedLine (.read a n)) =
      (if div_ceil n MAX_BYTES_PER_LINE ≤ 255 then
        .ok (.waitForResponse (.read a n) (div_ceil n MAX_BYTES_PER_LINE), [])
      else .error .tryFromIntError) := by
  simp only [process_line, split_promptedLine_read a n]
  rw [if_pos (show "DEBUG>".toList = promptText from rfl),
    from_tokens_read a n ha hn]

-- ### process_line on rendered hex-dump lines

theorem renderBytesSeg_chars :
    ∀ (bs : List Nat), ∀ c ∈ renderBytesSeg bs, c = ' ' ∨ c ∈ hexAlphabet := by
  intro bs
  induction bs with
  | nil => intro c hc; simp [renderBytesSeg, interSp] at hc
  | cons b rest ih =>
    intro c hc
    cases rest with
    | nil =>
      simp only [renderBytesSeg, List.map_cons, List.map_nil, interSp] at hc
      exact Or.inr (natToRadixChars_subset_hex b c hc)
    | cons b2 rest2 =>
      simp only [renderBytesSeg, List.map_cons, interSp, List.mem_append,
        List.mem_cons] at hc
      rcases hc with hc | rfl | hc
      · exact Or.inr (natToRadixChars_subset_hex b c hc)
      · exact Or.inl rfl
      · exact ih c (by simpa [renderBytesSeg] using hc)

theorem splitWs_renderBytesSeg (bs : List Nat) :
    split_ascii_whitespace (renderBytesSeg bs) = bs.map (natToRadixChars 16) := by
  refine split_ascii_whitespace_interSp _ ?_
  intro t ht
  simp only [List.mem_map] at ht
  obtain ⟨b, _, rfl⟩ := ht
  exact token_hex_ok b

theorem parseHexTokens_map (bs : List Nat) (h : ∀ b ∈ bs, b < u32Mod) :
    parseHexTokens (bs.map (natToRadixChars 16)) = some bs := by
  induction bs with
  | nil => simp [parseHexTokens]
  | cons b rest ih =>
    simp only [List.map_cons, parseHexTokens,
      fromStrRadixU32_natToRadixChars 16 b (by omega) (by omega) (h b (by simp)),
      ih (fun x hx => h x (by simp [hx]))]

theorem splitOnce_renderDumpLine (a0 : Nat) (bs : List Nat) :
    splitOnce (renderDumpLine a0 bs) [' ', '|'] =
      some (natToRadixChars 16 a0 ++ ':' :: ' ' :: renderBytesSeg bs,
        "----|".toList) := by
  have hform : renderDumpLine a0 bs =
      (natToRadixChars 16 a0 ++ ':' :: ' ' :: renderBytesSeg bs) ++
        ' ' :: '|' :: "----|".toList := by
    simp only [renderDumpLine, List.append_assoc, List.cons_append]
    rfl
  rw [hform]
  refine splitOnce_pair ' ' '|' (by decide) _ _ ?_
  intro hmem
  simp only [List.mem_append, List.mem_cons] at hmem
  rcases hmem with hmem | h | h | hmem
  · exact absurd rfl (hexAlphabet_props _ (natToRadixChars_subset_hex a0 _ hmem)).2.1
  · exact absurd h (by decide)
  · exact absurd h (by decide)
  · rcases renderBytesSeg_chars bs _ hmem with h | h
    · exact absurd h (by decide)
    · exact absurd rfl (hexAlphabet_props _ h).2.1

theorem splitOnce_colon (a0 : Nat) (bs : List Nat) :
    splitOnce (natToRadixChars 16 a0 ++ ':' :: ' ' :: renderBytesSeg bs)
        [':', ' '] = some (natToRadixChars 16 a0, renderBytesSeg bs) := by
  refine splitOnce_pair ':' ' ' (by decide) _ _ ?_
  intro hmem
  have h := (hexAlphabet_props _ (natToRadixChars_subset_hex a0 _ hmem)).1
  simp [isAsciiWhitespace] at h

theorem process_line_render (addr nbytes lines a0 : Nat) (bs : List Nat)
    (hbs : ∀ b ∈ bs, b < u32Mod) :
    process_line promptText (.waitForResponse (.read addr nbytes) lines)
        (renderDumpLine a0 bs) =
      .ok ((if 1 < lines then
        BufferState.waitForResponse (.read ((addr + MAX_BYTES_PER_LINE) % u32Mod)
          ((nbytes + u32Mod - MAX_BYTES_PER_LINE) % u32Mod)) (lines - 1)
      else BufferState.waitForCommand),
      (chunks4 bs).enum.map
        (fun p => Event.read ((addr + p.1 * 4) % u32Mod) (foldWord p.2))) := by
  simp only [process_line, show (" |".toList) = [' ', '|'] from rfl,
    show (": ".toList) = [':', ' '] from rfl, splitOnce_renderDumpLine,
    splitOnce_colon, splitWs_renderBytesSeg, parseHexTokens_map bs hbs]
  split <;> rfl

-- ### chunks4 and foldWord lemmas

theorem chunks4_length : ∀ (l : List Nat), (chunks4 l).length = (l.length + 3) / 4
  | [] => by simp [chunks4]
  | [_] => by simp [chunks4]
  | [_, _] => by simp [chunks4]
  | [_, _, _] => by simp [chunks4]
  | _ :: _ :: _ :: _ :: rest => by
    have ih := chunks4_length rest
    simp only [chunks4, List.length_cons, ih]
    omega

theorem getElem?_cons4 (x0 x1 x2 x3 : Nat) (rest : List Nat) (m : Nat) :
    (x0 :: x1 :: x2 :: x3 :: rest)[m + 4]? = rest[m]? := by
  rw [show m + 4 = m + 1 + 1 + 1 + 1 by ring]
  simp [List.getElem?_cons_succ]

theorem chunks4_append : ∀ (t r : List Nat), t.length % 4 = 0 →
    chunks4 (t ++ r) = chunks4 t ++ chunks4 r
  | [], r, _ => by simp [chunks4]
  | [_], _, h => by simp at h
  | [_, _], _, h => by simp at h
  | [_, _, _], _, h => by simp at h
  | x0 :: x1 :: x2 :: x3 :: rest, r, h => by
    have hr : rest.length % 4 = 0 := by
      simp only [List.length_cons] at h
      omega
    simp only [List.cons_append, chunks4, List.append_eq]
    rw [chunks4_append rest r hr]

theorem chunks4_getElem : ∀ (l : List Nat) (k b0 b1 b2 b3 : Nat),
    l[4 * k]? = some b0 → l[4 * k + 1]? = some b1 → l[4 * k + 2]? = some b2 →
    l[4 * k + 3]? = some b3 → (chunks4 l)[k]? = some [b0, b1, b2, b3]
  | [], k, _, _, _, _ => by
    intro h0 _ _ _
    rw [List.getElem?_eq_none (by simp)] at h0
    cases h0
  | [_], k, _, _, _, _ => by
    intro _ h1 _ _
    rw [List.getElem?_eq_none
      (by simp only [List.length_cons, List.length_nil]; omega)] at h1
    cases h1
  | [_, _], k, _, _, _, _ => by
    intro _ _ h2 _
    rw [List.getElem?_eq_none
      (by simp only [List.length_cons, List.length_nil]; omega)] at h2
    cases h2
  | [_, _, _], k, _, _, _, _ => by
    intro _ _ _ h3
    rw [List.getElem?_eq_none
      (by simp only [List.length_cons, List.length_nil]; omega)] at h3
    cases h3
  | x0 :: x1 :: x2 :: x3 :: rest, k, b0, b1, b2, b3 => by
    intro h0 h1 h2 h3
    match k with
    | 0 =>
      simp only [Nat.mul_zero, Nat.zero_add, List.getElem?_cons_zero,
        List.getElem?_cons_succ, Option.some.injEq] at h0 h1 h2 h3
      subst h0; subst h1; subst h2; subst h3
      simp [chunks4]
    | k + 1 =>
      rw [show 4 * (k + 1) = 4 * k + 4 by ring, getElem?_cons4] at h0
      rw [show 4 * (k + 1) + 1 = 4 * k + 1 + 4 by ring, getElem?_cons4] at h1
      rw [show 4 * (k + 1) + 2 = 4 * k + 2 + 4 by ring, getElem?_cons4] at h2
      rw [show 4 * (k + 1) + 3 = 4 * k + 3 + 4 by ring, getElem?_cons4] at h3
      have ih := chunks4_getElem rest k b0 b1 b2 b3 h0 h1 h2 h3
      simpa [chunks4] using ih

theorem foldWord_quad (b0 b1 b2 b3 : Nat) (h0 : b0 < 256) (h1 : b1 < 256)
    (h2 : b2 < 256) (h3 : b3 < 256) :
    foldWord [b0, b1, b2, b3] = b0 ||| b1 <<< 8 ||| b2 <<< 16 ||| b3 <<< 24 := by
  have he : foldWord [b0, b1, b2, b3] =
      (((0 ||| b0 <<< 0 % u32Mod) ||| b1 <<< 8 % u32Mod) ||| b2 <<< 16 % u32Mod)
        ||| b3 <<< 24 % u32Mod := rfl
  have m0 : b0 <<< 0 % u32Mod = b0 := by
    rw [Nat.shiftLeft_zero]
    exact Nat.mod_eq_of_lt (by norm_num [u32Mod]; omega)
  have m1 : b1 <<< 8 % u32Mod = b1 <<< 8 :=
    Nat.mod_eq_of_lt (by rw [Nat.shiftLeft_eq]; norm_num [u32Mod]; omega)
  have m2 : b2 <<< 16 % u32Mod = b2 <<< 16 :=
    Nat.mod_eq_of_lt (by rw [Nat.shiftLeft_eq]; norm_num [u32Mod]; omega)
  have m3 : b3 <<< 24 % u32Mod = b3 <<< 24 :=
    Nat.mod_eq_of_lt (by rw [Nat.shiftLeft_eq]; norm_num [u32Mod]; omega)
  rw [he, m0, m1, m2, m3, Nat.zero_or]

theorem map_enumFrom_shift {β : Type} (f : Nat × List Nat → β) (k : Nat)
    (l : List (List Nat)) :
    (List.enumFrom k l).map f = l.enum.map (fun p => f (p.1 + k, p.2)) := by
  suffices h : ∀ (j : Nat) (l : List (List Nat)),
      (List.enumFrom (j + k) l).map f =
        (List.enumFrom j l).map (fun p => f (p.1 + k, p.2)) by
    simpa [List.enum] using h 0 l
  intro j l
  induction l generalizing j with
  | nil => simp
  | cons x xs ih =>
    simp only [List.enumFrom_cons, List.map_cons]
    refine congrArg₂ _ rfl ?_
    rw [show j + k + 1 = (j + 1) + k by ring, ih (j + 1)]

-- ### trim lemmas

theorem dropWhile_append_of_all (p : Char → Bool) :
    ∀ (w l : List Char), (∀ c ∈ w, p c = true) →
      List.dropWhile p (w ++ l) = List.dropWhile p l := by
  intro w l
  induction w with
  | nil => intro _; simp
  | cons c cs ih =>
    intro h
    simp only [List.cons_append, List.dropWhile_cons, h c (by simp), if_true]
    exact ih (fun x hx => h x (by simp [hx]))

theorem dropWhile_of_head_false (p : Char → Bool) (l : List Char)
    (h : ∀ c, l.head? = some c → p c = false) : List.dropWhile p l = l := by
  cases l with
  | nil => simp
  | cons c cs =>
    have := h c rfl
    simp [List.dropWhile_cons, this]

theorem trim_wrap (x w : List Char) (hne : x ≠ [])
    (hh : ∀ c, x.head? = some c → isWhitespaceChar c = false)
    (hl : ∀ c, x.getLast? = some c → isWhitespaceChar c = false)
    (hw : ∀ c ∈ w, isWhitespaceChar c = true) :
    trim (x ++ w) = x := by
  unfold trim
  have h1 : List.dropWhile isWhitespaceChar (x ++ w) = x ++ w := by
    apply dropWhile_of_head_false
    intro c hc
    obtain ⟨c0, rest, rfl⟩ := List.exists_cons_of_ne_nil hne
    rw [List.cons_append, List.head?_cons] at hc
    injection hc with hce
    exact hce ▸ hh c0 rfl
  rw [h1, List.reverse_append,
    dropWhile_append_of_all _ w.reverse _ (fun c hc => hw c (List.mem_reverse.mp hc)),
    dropWhile_of_head_false _ _ (fun c hc => hl c (by rwa [List.head?_reverse] at hc)),
    List.reverse_reverse]

-- ### Whole-response processing

theorem div_ceil16 (n : Nat) (h : n ≤ 4080) :
    div_ceil n MAX_BYTES_PER_LINE = (n + 15) / 16 := by
  unfold div_ceil MAX_BYTES_PER_LINE
  rw [show n + 16 - 1 = n + 15 by omega,
    Nat.mod_eq_of_lt (show n + 15 < u32Mod by unfold u32Mod; omega)]

theorem mem_enum_fst_lt {α : Type} (l : List α) (p : Nat × α) (h : p ∈ l.enum) :
    p.1 < l.length := by
  have h2 := List.mem_enum_iff_getElem?.mp h
  exact (List.getElem?_eq_some.mp h2).1

theorem processLines_dumpAux :
    ∀ (fuel : Nat) (bs : List Nat) (addr n : Nat),
      bs.length ≤ fuel → bs ≠ [] → bs.length = n → n ≤ 4080 →
      addr + n ≤ u32Mod → (∀ b ∈ bs, b < u32Mod) →
      processLines promptText
          (.waitForResponse (.read addr n) (div_ceil n MAX_BYTES_PER_LINE))
          (dumpLinesAux addr fuel bs) =
        .ok (.waitForCommand,
          (chunks4 bs).enum.map
            (fun p => Event.read (addr + p.1 * 4) (foldWord p.2))) := by
  intro fuel
  induction fuel with
  | zero =>
    intro bs addr n hf hne _ _ _ _
    cases bs with
    | nil => exact absurd rfl hne
    | cons b rest => simp at hf
  | succ f ih =>
    intro bs addr n hf hne hlen hn4080 hbound hbs
    obtain ⟨b, rest, rfl⟩ := List.exists_cons_of_ne_nil hne
    have hnpos : 1 ≤ n := by
      subst hlen
      simp
    by_cases h16 : (b :: rest).length ≤ 16
    · have htake : (b :: rest).take 16 = b :: rest := List.take_of_length_le h16
      have hdrop : (b :: rest).drop 16 = [] := List.drop_eq_nil_of_le h16
      have hdc : div_ceil n MAX_BYTES_PER_LINE = 1 := by
        rw [div_ceil16 n hn4080]
        subst hlen
        simp only [List.length_cons] at h16 ⊢
        omega
      have h1 : process_line promptText
          (.waitForResponse (.read addr n) (div_ceil n MAX_BYTES_PER_LINE))
          (renderDumpLine (addr % u32Mod) (b :: rest)) =
          .ok (.waitForCommand,
            (chunks4 (b :: rest)).enum.map
              (fun p => Event.read ((addr + p.1 * 4) % u32Mod) (foldWord p.2))) := by
        rw [process_line_render addr n _ _ (b :: rest) hbs, hdc, if_neg (by omega)]
      simp only [dumpLinesAux, htake, hdrop, processLines, h1, List.append_nil]
      refine congrArg _ (congrArg _ ?_)
      apply List.map_congr_left
      intro p hp
      have hplt : p.1 < (chunks4 (b :: rest)).length := mem_enum_fst_lt _ p hp
      rw [chunks4_length] at hplt
      have hmod : addr + p.1 * 4 < u32Mod := by
        have hlb : (b :: rest).length ≤ 16 := h16
        unfold u32Mod at hbound ⊢
        omega
      rw [Nat.mod_eq_of_lt hmod]
    · push_neg at h16
      have hn17 : 17 ≤ n := by
        subst hlen
        omega
      have htb : ∀ x ∈ (b :: rest).take 16, x < u32Mod :=
        fun x hx => hbs x (List.take_subset _ _ hx)
      have htlen : ((b :: rest).take 16).length = 16 := by
        rw [List.length_take]
        omega
      have hrne : (b :: rest).drop 16 ≠ [] := by
        apply List.ne_nil_of_length_pos
        rw [List.length_drop]
        omega
      have hdc : div_ceil n MAX_BYTES_PER_LINE = (n + 15) / 16 := div_ceil16 n hn4080
      have hdc2 : div_ceil (n - 16) MAX_BYTES_PER_LINE = (n - 16 + 15) / 16 :=
        div_ceil16 _ (by omega)
      have hA : (addr + MAX_BYTES_PER_LINE) % u32Mod = addr + 16 := by
        unfold MAX_BYTES_PER_LINE u32Mod
        unfold u32Mod at hbound
        omega
      have hB : (n + u32Mod - MAX_BYTES_PER_LINE) % u32Mod = n - 16 := by
        unfold MAX_BYTES_PER_LINE u32Mod
        omega
      have hC : div_ceil n MAX_BYTES_PER_LINE - 1 =
          div_ceil (n - 16) MAX_BYTES_PER_LINE := by
        rw [hdc, hdc2]
        omega
      have h1 : process_line promptText
          (.waitForResponse (.read addr n) (div_ceil n MAX_BYTES_PER_LINE))
          (renderDumpLine (addr % u32Mod) ((b :: rest).take 16)) =
          .ok (.waitForResponse (.read (addr + 16) (n - 16))
              (div_ceil (n - 16) MAX_BYTES_PER_LINE),
            (chunks4 ((b :: rest).take 16)).enum.map
              (fun p => Event.read ((addr + p.1 * 4) % u32Mod) (foldWord p.2))) := by
        rw [process_line_render addr n _ _ _ htb,
          if_pos (show 1 < div_ceil n MAX_BYTES_PER_LINE by rw [hdc]; omega),
          hA, hB, hC]
      have h2 := ih ((b :: rest).drop 16) (addr + 16) (n - 16)
        (by rw [List.length_drop]; simp only [List.length_cons] at hf ⊢; omega)
        hrne
        (by rw [List.length_drop]; omega)
        (by omega)
        (by omega)
        (fun x hx => hbs x (List.drop_subset _ _ hx))
      simp only [dumpLinesAux, processLines, h1, h2]
      refine congrArg _ (congrArg _ ?_)
      conv_rhs => rw [← List.take_append_drop 16 (b :: rest)]
      rw [chunks4_append _ _ (by rw [htlen]), List.enum_append, List.map_append]
      refine congrArg₂ _ ?_ ?_
      · apply List.map_congr_left
        intro p hp
        have hplt : p.1 < (chunks4 ((b :: rest).take 16)).length :=
          mem_enum_fst_lt _ p hp
        rw [chunks4_length, htlen] at hplt
        have hmod : addr + p.1 * 4 < u32Mod := by
          unfold u32Mod at hbound ⊢
          omega
        rw [Nat.mod_eq_of_lt hmod]
      · rw [chunks4_length, htlen,
          show (16 + 3) / 4 = 4 by norm_num,
          map_enumFrom_shift]
        apply List.map_congr_left
        intro p _
        have : addr + 16 + p.1 * 4 = addr + (p.1 + 4) * 4 := by ring
        rw [← this]

/-- Decidable equality for `Except` results, so concrete runs can be checked
by `decide`. -/
instance instDecEqExcept {e a : Type} [DecidableEq e] [DecidableEq a] :
    DecidableEq (Except e a)
  | .ok x, .ok y =>
    if h : x = y then .isTrue (by rw [h])
    else .isFalse (by intro hc; cases hc; exact h rfl)
  | .ok _, .error _ => .isFalse (by intro hc; cases hc)
  | .error _, .ok _ => .isFalse (by intro hc; cases hc)
  | .error x, .error y =>
    if h : x = y then .isTrue (by rw [h])
    else .isFalse (by intro hc; cases hc; exact h rfl)

-- ### Claim theorems

/-- C1: for every hex-dump response line processed in WaitForResponse whose
delimiters are present, each group of four consecutive parsed bytes
`b0 b1 b2 b3` at word-aligned offset is decoded little-endian: the `k`-th
emitted Read event carries `data = b0 ||| b1 <<< 8 ||| b2 <<< 16 ||| b3 <<< 24`. -/
theorem c1_little_endian_word_decode (addr nbytes lines k : Nat)
    (line rem gutter pre seg : List Char) (bs : List Nat) (b0 b1 b2 b3 : Nat)
    (hsplit1 : splitOnce line " |".toList = some (rem, gutter))
    (hsplit2 : splitOnce rem ": ".toList = some (pre, seg))
    (hparse : parseHexTokens (split_ascii_whitespace seg) = some bs)
    (hb0 : bs[4 * k]? = some b0) (hb1 : bs[4 * k + 1]? = some b1)
    (hb2 : bs[4 * k + 2]? = some b2) (hb3 : bs[4 * k + 3]? = some b3)
    (h0 : b0 < 256) (h1 : b1 < 256) (h2 : b2 < 256) (h3 : b3 < 256) :
    ∃ st evs, process_line promptText
        (.waitForResponse (.read addr nbytes) lines) line = .ok (st, evs) ∧
      ∃ a, evs[k]? =
        some (.read a (b0 ||| b1 <<< 8 ||| b2 <<< 16 ||| b3 <<< 24)) := by
  have hev : (((chunks4 bs).enum.map
      (fun p => Event.read ((addr + p.1 * 4) % u32Mod) (foldWord p.2))))[k]? =
      some (.read ((addr + k * 4) % u32Mod)
        (b0 ||| b1 <<< 8 ||| b2 <<< 16 ||| b3 <<< 24)) := by
    rw [List.getElem?_map, List.getElem?_enum,
      chunks4_getElem bs k b0 b1 b2 b3 hb0 hb1 hb2 hb3]
    simp only [Option.map_some']
    rw [foldWord_quad b0 b1 b2 b3 h0 h1 h2 h3]
  by_cases hl : 1 < lines
  · refine ⟨BufferState.waitForResponse
      (.read ((addr + MAX_BYTES_PER_LINE) % u32Mod)
        ((nbytes + u32Mod - MAX_BYTES_PER_LINE) % u32Mod)) (lines - 1),
      _, ?_, _, hev⟩
    simp only [process_line, hsplit1, hsplit2, hparse, if_pos hl]
  · refine ⟨BufferState.waitForCommand, _, ?_, _, hev⟩
    simp only [process_line, hsplit1, hsplit2, hparse, if_neg hl]

/-- C1 witness: the source-comment example line `c0000010: 03 0a 30 18 |..0.|`
decodes its first word to `0x18300a03`. -/
theorem c1_witness : ∃ st evs, process_line promptText
    (.waitForResponse (.read 0xc0000010 16) 1)
    "c0000010: 03 0a 30 18 |..0.|".toList = .ok (st, evs) ∧
    ∃ a, evs[0]? =
      some (.read a (0x03 ||| 0x0a <<< 8 ||| 0x30 <<< 16 ||| 0x18 <<< 24)) :=
  c1_little_endian_word_decode 0xc0000010 16 1 0
    "c0000010: 03 0a 30 18 |..0.|".toList
    "c0000010: 03 0a 30 18".toList "..0.|".toList
    "c0000010".toList "03 0a 30 18".toList
    [0x03, 0x0a, 0x30, 0x18] 0x03 0x0a 0x30 0x18
    (by decide) (by decide) (by decide)
    (by decide) (by decide) (by decide) (by decide)
    (by decide) (by decide) (by decide) (by decide)

/-- C3: the claim says an empty (after trimming) line is skipped with no
event, no state change and no failure; the code instead panics in
`WaitForCommand` (`tokens.split_at(1)` on an empty token list) and aborts the
pending response in `WaitForResponse`.  This theorem evaluates the code at
the failing input. -/
theorem c3_empty_line_behavior :
    trim "\n".toList = [] ∧
    process_line promptText .waitForCommand [] = .error .outOfBounds ∧
    process_line promptText (.waitForResponse (.read 0 16) 1) [] =
      .ok (.waitForCommand, []) :=
  ⟨by decide, rfl, rfl⟩

/-- C5 counterexample: a hex-dump line carrying only the two bytes `01 02`
(not a multiple of four) emits a Read event `data = 0x0201` for the
incomplete trailing group instead of discarding it. -/
theorem c5_counterexample :
    process_line promptText (.waitForResponse (.read 0 16) 1)
      "0: 01 02 |-|".toList = .ok (.waitForCommand, [Event.read 0 513]) := by
  decide

/-- C5 amended: an incomplete trailing group of 1-3 bytes is not discarded;
it produces one additional Read event (zero-extended little-endian), so a
line with `len` bytes, `len` not a multiple of 4, emits `len / 4 + 1`
events. -/
theorem c5_amended_partial_group_emitted (addr nbytes lines a0 : Nat)
    (bs : List Nat) (hbs : ∀ b ∈ bs, b < u32Mod) (hmod : bs.length % 4 ≠ 0) :
    ∃ st evs, process_line promptText (.waitForResponse (.read addr nbytes) lines)
        (renderDumpLine a0 bs) = .ok (st, evs) ∧
      evs.length = bs.length / 4 + 1 := by
  refine ⟨_, _, process_line_render addr nbytes lines a0 bs hbs, ?_⟩
  simp only [List.length_map, List.enum_length, chunks4_length]
  omega

/-- C5 amended witness: the two-byte line emits 0 / 4 + 1 = 1 event. -/
theorem c5_amended_witness : ∃ st evs,
    process_line promptText (.waitForResponse (.read 0 16) 1)
      (renderDumpLine 0 [1, 2]) = .ok (st, evs) ∧
    evs.length = ([1, 2] : List Nat).length / 4 + 1 :=
  c5_amended_partial_group_emitted 0 16 1 0 [1, 2] (by decide) (by decide)

/-- C6 counterexample: the three-hex-digit token `100` (value 256, outside
8-bit range) is accepted by the parser and folded into the word, rather than
rejected: the line produces `data = 256` with no error. -/
theorem c6_counterexample :
    process_line promptText (.waitForResponse (.read 0 4) 1)
      "0: 100 |-|".toList = .ok (.waitForCommand, [Event.read 0 256]) := by
  decide

/-- C6 amended: with both delimiters present, processing the line fails (a
session-terminating protocol error) if and only if some whitespace-separated
token between them fails to parse as a 32-bit hex value
(`u32::from_str_radix`); values above 8-bit range are folded, not rejected. -/
theorem c6_amended_parse_failure_iff (addr nbytes lines : Nat)
    (line rem gutter pre seg : List Char)
    (hsplit1 : splitOnce line " |".toList = some (rem, gutter))
    (hsplit2 : splitOnce rem ": ".toList = some (pre, seg)) :
    (∃ e, process_line promptText (.waitForResponse (.read addr nbytes) lines)
        line = .error e) ↔
      parseHexTokens (split_ascii_whitespace seg) = none := by
  constructor
  · rintro ⟨e, he⟩
    cases hp : parseHexTokens (split_ascii_whitespace seg) with
    | none => rfl
    | some bs =>
      exfalso
      simp only [process_line, hsplit1, hsplit2, hp] at he
      by_cases hl : 1 < lines
      · rw [if_pos hl] at he
        cases he
      · rw [if_neg hl] at he
        cases he
  · intro hp
    exact ⟨.parseIntError, by simp only [process_line, hsplit1, hsplit2, hp]⟩

/-- C6 amended witness: on `0: zz |-|` the hex token `zz` fails and the
processing errors. -/
theorem c6_amended_witness :
    (∃ e, process_line promptText (.waitForResponse (.read 0 4) 1)
      "0: zz |-|".toList = .error e) ↔
    parseHexTokens (split_ascii_whitespace "zz".toList) = none :=
  c6_amended_parse_failure_iff 0 4 1 "0: zz |-|".toList
    "0: zz".toList "-|".toList "0".toList "zz".toList (by decide) (by decide)

/-- C2: a Read echo line for `nbytes = n` enters `WaitForResponse` with
`ceil(n/16)` lines, and a well-formed response (16 bytes per line, bytes of
the read in order) produces exactly `ceil(n/4)` Read events, in order, at
addresses `addr, addr+4, …`, finishing back in `WaitForCommand`. -/
theorem c2_read_response_events (addr n : Nat) (bs : List Nat)
    (hn0 : 0 < n) (hn : n ≤ 4080) (hbound : addr + n ≤ u32Mod)
    (hlen : bs.length = n) (hbytes : ∀ b ∈ bs, b < 256) :
    process_line promptText .waitForCommand (promptedLine (.read addr n)) =
      .ok (.waitForResponse (.read addr n) (div_ceil n MAX_BYTES_PER_LINE), []) ∧
    div_ceil n MAX_BYTES_PER_LINE = (n + 15) / 16 ∧
    ∃ evs, processLines promptText
        (.waitForResponse (.read addr n) (div_ceil n MAX_BYTES_PER_LINE))
        (dumpLines addr bs) = .ok (.waitForCommand, evs) ∧
      evs.length = (n + 3) / 4 ∧
      ∀ k, k < evs.length → ∃ d, evs[k]? = some (Event.read (addr + 4 * k) d) := by
  have hu32 : n < u32Mod := by unfold u32Mod; omega
  have ha : addr < u32Mod := by unfold u32Mod at hbound ⊢; omega
  have hbsu : ∀ b ∈ bs, b < u32Mod := fun b hb =>
    lt_of_lt_of_le (hbytes b hb) (by unfold u32Mod; omega)
  refine ⟨?_, div_ceil16 n hn, ?_⟩
  · rw [process_line_read_echo addr n ha hu32,
      if_pos (by rw [div_ceil16 n hn]; omega)]
  · have hne : bs ≠ [] := by
      intro h
      subst h
      simp at hlen
      omega
    have hrun := processLines_dumpAux bs.length bs addr n (le_refl _) hne hlen
      hn hbound hbsu
    refine ⟨_, hrun, ?_, ?_⟩
    · simp only [List.length_map, List.enum_length, chunks4_length, hlen]
    · intro k hk
      simp only [List.length_map, List.enum_length, chunks4_length] at hk
      have hk2 : k < (chunks4 bs).length := by
        rw [chunks4_length]
        exact hk
      refine ⟨foldWord ((chunks4 bs)[k]), ?_⟩
      rw [List.getElem?_map, List.getElem?_enum, List.getElem?_eq_getElem hk2]
      simp only [Option.map_some']
      rw [show addr + 4 * k = addr + k * 4 by ring]

/-- C2 witness: the 20-byte read of the integration test (two response
lines) produces 5 events at addresses stepping by 4. -/
theorem c2_witness :
    process_line promptText .waitForCommand
        (promptedLine (.read 0x600df00d 20)) =
      .ok (.waitForResponse (.read 0x600df00d 20)
        (div_ceil 20 MAX_BYTES_PER_LINE), []) ∧
    div_ceil 20 MAX_BYTES_PER_LINE = (20 + 15) / 16 ∧
    ∃ evs, processLines promptText
        (.waitForResponse (.read 0x600df00d 20) (div_ceil 20 MAX_BYTES_PER_LINE))
        (dumpLines 0x600df00d
          [0x5a, 0x5a, 0x5a, 0x5a, 1, 2, 3, 4, 5, 6, 7, 8, 9, 0xa, 0xb, 0xc,
            0xd, 0xe, 0xf, 0x10]) = .ok (.waitForCommand, evs) ∧
      evs.length = (20 + 3) / 4 ∧
      ∀ k, k < evs.length →
        ∃ d, evs[k]? = some (Event.read (0x600df00d + 4 * k) d) :=
  c2_read_response_events 0x600df00d 20
    [0x5a, 0x5a, 0x5a, 0x5a, 1, 2, 3, 4, 5, 6, 7, 8, 9, 0xa, 0xb, 0xc,
      0xd, 0xe, 0xf, 0x10]
    (by decide) (by decide) (by norm_num [u32Mod]) (by decide) (by decide)

/-- C4 counterexample: a buffer holding the complete line `a` plus a partial
line `b` (no trailing newline) forwards nothing and retains the complete
line across the iteration, contradicting split-and-forward-per-line. -/
theorem c4_counterexample :
    combinerStep "a\nb".toList = (none, "a\nb".toList) ∧
      '\n' ∈ "a\nb".toList ∧
      (combinerStep "a\nb".toList).1 ≠ some (trim "a".toList) ∧
      (combinerStep "a\nb".toList).2 ≠ "b".toList := by
  exact ⟨by decide, by decide, by decide, by decide⟩

/-- C4 amended: the combiner processes the buffer only when it ends in a
newline, and then forwards the entire trimmed buffer as one line and clears
it; hence when every arriving chunk ends in a newline, each chunk is
forwarded (trimmed) as a single line and the buffer is empty between
iterations. -/
theorem c4_amended_line_atomic_chunks (chunks : List (List Char))
    (h : ∀ ch ∈ chunks, ch.getLast? = some '\n') :
    combinerRun [] chunks = (chunks.map trim, []) := by
  induction chunks with
  | nil => rfl
  | cons ch rest ih =>
    have hch : ch.getLast? = some '\n' := h ch (by simp)
    simp only [combinerRun, List.nil_append, combinerStep, hch, if_pos,
      List.map_cons]
    rw [ih (fun u hu => h u (by simp [hu]))]

/-- C4 amended witness: two newline-terminated arrivals are forwarded as two
trimmed lines, leaving an empty buffer. -/
theorem c4_amended_witness :
    combinerRun [] ["DEBUG> mw kernel 0x1 0x2\n".toList, "x\n".toList] =
      ([trim "DEBUG> mw kernel 0x1 0x2\n".toList, trim "x\n".toList], []) :=
  c4_amended_line_atomic_chunks _ (by decide)

/-- C7 counterexample: the locally injected echo text alone (no target
output) is not prompt-matched: its first token is `mw`, not `DEBUG>`, and
processing it emits no event and leaves the parser in `WaitForCommand`. -/
theorem c7_counterexample :
    (split_ascii_whitespace (trim (echoMessage .lf
        (.write 0x600df00d 0xa5a5a5a5)))).head? = some "mw".toList ∧
    process_line promptText .waitForCommand
        (trim (echoMessage .lf (.write 0x600df00d 0xa5a5a5a5))) =
      .ok (.waitForCommand, []) := by
  exact ⟨by decide, by decide⟩

theorem promptedLine_ne_nil (c : Command) : promptedLine c ≠ [] := by
  cases c <;> exact fun h => nomatch h

theorem promptedLine_head_not_ws (c : Command) :
    ∀ ch, (promptedLine c).head? = some ch → isWhitespaceChar ch = false := by
  intro ch hch
  cases c with
  | read a n =>
    rw [show (promptedLine (.read a n)).head? = some 'D' from rfl] at hch
    injection hch with h
    subst h
    decide
  | write a d =>
    rw [show (promptedLine (.write a d)).head? = some 'D' from rfl] at hch
    injection hch with h
    subst h
    decide

theorem promptedLine_getLast_not_ws (c : Command) :
    ∀ ch, (promptedLine c).getLast? = some ch → isWhitespaceChar ch = false := by
  cases c with
  | read a n =>
    intro ch hch
    have h1 : promptedLine (.read a n) =
        ("DEBUG> ".toList ++ ("mr kernel 0x".toList ++ natToRadixChars 16 a ++
          " ".toList)) ++ natToRadixChars 10 n := by
      simp [promptedLine, commandText, List.append_assoc]
    rw [h1, List.getLast?_append_of_ne_nil _ (natToRadixChars_ne_nil 10 n)] at hch
    have hmem : ch ∈ natToRadixChars 10 n :=
      List.mem_of_mem_getLast? (Option.mem_def.mpr hch)
    exact (decAlphabet_props ch (natToRadixChars_subset_dec n ch hmem)).2.2.2.2.2
  | write a d =>
    intro ch hch
    have h1 : promptedLine (.write a d) =
        ("DEBUG> ".toList ++ ("mw kernel 0x".toList ++ natToRadixChars 16 a ++
          " 0x".toList)) ++ natToRadixChars 16 d := by
      simp [promptedLine, commandText, List.append_assoc]
    rw [h1, List.getLast?_append_of_ne_nil _ (natToRadixChars_ne_nil 16 d)] at hch
    have hmem : ch ∈ natToRadixChars 16 d :=
      List.mem_of_mem_getLast? (Option.mem_def.mpr hch)
    exact (hexAlphabet_props ch (natToRadixChars_subset_hex d ch hmem)).2.2.2

theorem lineEndingText_ws (le : LineEnding) :
    ∀ c ∈ lineEndingText le, isWhitespaceChar c = true := by
  cases le <;> decide

theorem lineEndingText_getLast (le : LineEnding) :
    (lineEndingText le).getLast? = some '\n' := by
  cases le <;> rfl

/-- C7 amended: under `Echo::Local` the injected bytes are the bare command
text plus line ending; the parser sees a prompt-matched line only when the
target prompt output `DEBUG> ` already precedes them in the buffer, in
which case the combined line is recognised and the Write event emitted. -/
theorem c7_amended_echo_needs_prompt (le : LineEnding) (a d : Nat)
    (ha : a < u32Mod) (hd : d < u32Mod) :
    combinerStep ("DEBUG> ".toList ++ echoMessage le (.write a d)) =
      (some (promptedLine (.write a d)), []) ∧
    process_line promptText .waitForCommand (promptedLine (.write a d)) =
      .ok (.waitForCommand, [Event.write a d]) := by
  constructor
  · have hbuf : "DEBUG> ".toList ++ echoMessage le (.write a d) =
        promptedLine (.write a d) ++ lineEndingText le := by
      simp [echoMessage, promptedLine, List.append_assoc]
    have hle : lineEndingText le ≠ [] := by cases le <;> decide
    have hlast : (promptedLine (.write a d) ++ lineEndingText le).getLast? =
        some '\n' := by
      rw [List.getLast?_append_of_ne_nil _ hle]
      exact lineEndingText_getLast le
    rw [hbuf]
    unfold combinerStep
    rw [if_pos hlast,
      trim_wrap _ _ (promptedLine_ne_nil _) (promptedLine_head_not_ws _)
        (promptedLine_getLast_not_ws _) (lineEndingText_ws le)]
  · exact process_line_write_echo a d ha hd

/-- C7 amended witness. -/
theorem c7_amended_witness :
    combinerStep ("DEBUG> ".toList ++
        echoMessage .lf (.write 0x600df00d 0xa5a5a5a5)) =
      (some (promptedLine (.write 0x600df00d 0xa5a5a5a5)), []) ∧
    process_line promptText .waitForCommand
        (promptedLine (.write 0x600df00d 0xa5a5a5a5)) =
      .ok (.waitForCommand, [Event.write 0x600df00d 0xa5a5a5a5]) :=
  c7_amended_echo_needs_prompt .lf 0x600df00d 0xa5a5a5a5
    (by norm_num [u32Mod]) (by norm_num [u32Mod])

/-- C8: the Serial Transmitter writes, per command in order, exactly the
canonical command text followed by the configured line-ending bytes; in
particular `Write { addr: 0x600df00d, data: 0xa5a5a5a5 }` under
`LineEnding::Lf` yields exactly `mw kernel 0x600df00d 0xa5a5a5a5\n`. -/
theorem c8_serial_transmit_bytes :
    (∀ (le : LineEnding) (cs : List Command),
      process_serial_tx le cs =
        (cs.map (fun c => commandText c ++ lineEndingText le)).flatten) ∧
    process_serial_tx .lf [.write 0x600df00d 0xa5a5a5a5] =
      "mw kernel 0x600df00d 0xa5a5a5a5\n".toList := by
  refine ⟨?_, by decide⟩
  intro le cs
  induction cs with
  | nil => rfl
  | cons c rest ih => simp [process_serial_tx, ih]

/-- C9: tokenizing the formatted text of any command on ASCII whitespace and
parsing it with the command grammar recovers the command exactly. -/
theorem c9_format_parse_roundtrip (c : Command) (h : commandFieldsLtU32 c) :
    Command.from_tokens (split_ascii_whitespace (commandText c)) = some c := by
  cases c with
  | read a n =>
    obtain ⟨ha, hn⟩ := h
    rw [split_commandText_read, from_tokens_read a n ha hn]
  | write a d =>
    obtain ⟨ha, hd⟩ := h
    rw [split_commandText_write, from_tokens_write a d ha hd]

/-- C9 witness. -/
theorem c9_witness :
    Command.from_tokens (split_ascii_whitespace
        (commandText (.write 0x600df00d 0xa5a5a5a5))) =
      some (.write 0x600df00d 0xa5a5a5a5) :=
  c9_format_parse_roundtrip _ (by exact ⟨by norm_num [u32Mod], by norm_num [u32Mod]⟩)

/-- C10 counterexample: `nbytes = 4294967295` exceeds 4080, yet the wrapping
u32 `div_ceil` yields 0 lines, which fits in `u8`, so `process_line`
succeeds and enters `WaitForResponse` instead of returning an error. -/
theorem c10_counterexample :
    process_line promptText .waitForCommand
        "DEBUG> mr kernel 0x0 4294967295".toList =
      .ok (.waitForResponse (.read 0 4294967295) 0, []) := by
  decide

/-- C10 amended: the line counter is narrowed through `u8`; a prompt-matched
Read echo errors (fatal `try_into` failure) exactly for
`4080 < nbytes ≤ 4294967280`; for `nbytes > 4294967280` the u32 addition in
`div_ceil` wraps, the counter becomes 0, and the parser enters
`WaitForResponse` with `lines = 0`. -/
theorem c10_amended_lines_narrowing (n : Nat) :
    (4080 < n → n ≤ 4294967280 →
      process_line promptText .waitForCommand (promptedLine (.read 0 n)) =
        .error .tryFromIntError) ∧
    (4294967280 < n → n < u32Mod →
      process_line promptText .waitForCommand (promptedLine (.read 0 n)) =
        .ok (.waitForResponse (.read 0 n) 0, [])) := by
  constructor
  · intro h1 h2
    rw [process_line_read_echo 0 n (by unfold u32Mod; omega)
        (by unfold u32Mod; omega),
      if_neg (by unfold div_ceil MAX_BYTES_PER_LINE u32Mod; omega)]
  · intro h1 h2
    have hdc : div_ceil n MAX_BYTES_PER_LINE = 0 := by
      unfold u32Mod at h2
      unfold div_ceil MAX_BYTES_PER_LINE u32Mod
      omega
    rw [process_line_read_echo 0 n (by unfold u32Mod; omega) h2, hdc,
      if_pos (by omega)]

/-- C10 amended witness: `nbytes = 5000` errors; `nbytes = 4294967290` wraps
into `WaitForResponse` with zero lines. -/
theorem c10_witness :
    process_line promptText .waitForCommand (promptedLine (.read 0 5000)) =
      .error .tryFromIntError ∧
    process_line promptText .waitForCommand (promptedLine (.read 0 4294967290)) =
      .ok (.waitForResponse (.read 0 4294967290) 0, []) :=
  ⟨(c10_amended_lines_narrowing 5000).1 (by omega) (by omega),
    (c10_amended_lines_narrowing 4294967290).2 (by omega) (by norm_num [u32Mod])⟩
